import Mathlib

/-!
Verification of the spatial-correlation pipeline of
`src/Week9/Spatial_Correlation.ipynb`: the LISA label recoding loops, the
data-cleaning steps, and (modelled from the specification, since the
spatial-statistics library internals are not part of this repository) the
global and local bivariate Moran computations.

Numeric cell values are embedded as rationals (ℚ); the p-values appearing in
the notebook (multiples of 1/1000) and the significance threshold 0.05 are
exactly representable.
-/

namespace SpatialCorr

/-- The classification dictionary of notebook cells 49 and 69:
`lm_dict = {1: 'HH', 2: 'LH', 3: 'LL', 4: 'HL'}`.  A lookup of a key outside
the dictionary raises `KeyError` in Python, embedded here as `none`. -/
def lm_dict (q : ℕ) : Option String :=
  if q = 1 then some "HH"
  else if q = 2 then some "LH"
  else if q = 3 then some "LL"
  else if q = 4 then some "HL"
  else none

/-- The significance threshold `0.05` hard-coded in both recoding loops. -/
def alpha : ℚ := 5 / 100

/-- The body of the recoding loop of cell 49: for one region with quadrant
code `q` and p-value `p`, write `lm_dict[q]` when `p < 0.05`, else `'NA'`. -/
def lisaEntry (q : ℕ) (p : ℚ) : Option String :=
  if p < alpha then lm_dict q else some "NA"

/-- The recoding loop over `tract_gdf` (cell 49): iterate
`for idx in range(tract_gdf.shape[0])`, reading `bv_lm.q[idx]` and
`bv_lm.p_sim[idx]` by position. -/
def recodeGdf (q : List ℕ) (p : List ℚ) : List (Option String) :=
  (List.range q.length).map (fun idx => lisaEntry (q.getD idx 0) (p.getD idx 0))

/-- The recoding loop over `tract_svi` (cell 69): iterate
`for idx, row in tract_svi.iterrows()`, reading `row['bv_lm_svi']` and
`row['bv_lm_svi_pval']` from each row, with the same dictionary and the same
threshold `0.05`. -/
def recodeSvi (rows : List (ℕ × ℚ)) : List (Option String) :=
  rows.map (fun row => if row.2 < alpha then lm_dict row.1 else some "NA")

/-- Modelled from the spec: the quadrant classification of
`esda.Moran_Local_BV` (the library internals are not part of this repository).
Per §4.3 of the spec, the code is a function of the sign of the standardized
own value `z_x` and of the spatially lagged standardized other value:
`z_x ≥ 0 ∧ lag ≥ 0 → 1`, `z_x < 0 ∧ lag ≥ 0 → 2`, `z_x < 0 ∧ lag < 0 → 3`,
`z_x ≥ 0 ∧ lag < 0 → 4`. -/
def quadrantCode (zx lag : ℚ) : ℕ :=
  if 0 ≤ zx then (if 0 ≤ lag then 1 else 4)
  else (if 0 ≤ lag then 2 else 3)

/-- Per-region quadrant codes for aligned sequences of standardized values
and lagged values. -/
def quadrantCodes (zx lag : List ℚ) : List ℕ :=
  List.zipWith quadrantCode zx lag

/-- Claim C1: the quadrant/significance label recoding is a pure function of
(quadrant code, p_sim, α = 0.05): whenever `p_sim ≥ α` the label is `'NA'`
regardless of the quadrant code, and whenever `p_sim < α` the label is the
image of the code under `{1:'HH', 2:'LH', 3:'LL', 4:'HL'}`. -/
theorem lisaEntry_pure (q : ℕ) (p : ℚ) :
    (alpha ≤ p → lisaEntry q p = some "NA") ∧
    (p < alpha → lisaEntry q p = lm_dict q) ∧
    lm_dict 1 = some "HH" ∧ lm_dict 2 = some "LH" ∧
    lm_dict 3 = some "LL" ∧ lm_dict 4 = some "HL" := by
  refine ⟨fun h => ?_, fun h => ?_, rfl, rfl, rfl, rfl⟩
  · simp [lisaEntry, not_lt.mpr h]
  · simp [lisaEntry, h]

theorem lisaEntry_pure_witness :
    lisaEntry 2 (6 / 100) = some "NA" ∧ lisaEntry 4 (1 / 100) = some "HL" := by
  refine ⟨(lisaEntry_pure 2 (6 / 100)).1 (by norm_num [alpha]), ?_⟩
  exact ((lisaEntry_pure 4 (1 / 100)).2.1 (by norm_num [alpha])).trans rfl

/-- Claim C3: every local quadrant code is determined by the signs of the
standardized own value and the lagged standardized other value, with the
boundary value zero classified as high: code 1 iff `z_x ≥ 0 ∧ lag ≥ 0`,
code 2 iff `z_x < 0 ∧ lag ≥ 0`, code 3 iff `z_x < 0 ∧ lag < 0`, code 4 iff
`z_x ≥ 0 ∧ lag < 0`. -/
theorem quadrantCode_sign (zx lag : ℚ) :
    (quadrantCode zx lag = 1 ↔ 0 ≤ zx ∧ 0 ≤ lag) ∧
    (quadrantCode zx lag = 2 ↔ zx < 0 ∧ 0 ≤ lag) ∧
    (quadrantCode zx lag = 3 ↔ zx < 0 ∧ lag < 0) ∧
    (quadrantCode zx lag = 4 ↔ 0 ≤ zx ∧ lag < 0) := by
  rcases le_or_lt 0 zx with hx | hx <;> rcases le_or_lt 0 lag with hl | hl
  · simp [quadrantCode, hx, hl, hx.not_lt, hl.not_lt]
  · simp [quadrantCode, hx, hl, hx.not_lt, hl.not_le]
  · simp [quadrantCode, hx, hl, hx.not_le, hl.not_lt]
  · simp [quadrantCode, hx, hl, hx.not_le, hl.not_le]

/-- Positional read of the cell-49 recode output: entry `i` is the recoded
label of region `i`. -/
theorem recodeGdf_getD (q : List ℕ) (p : List ℚ) (i : ℕ) (h : i < q.length) :
    (recodeGdf q p).getD i none = lisaEntry (q.getD i 0) (p.getD i 0) := by
  have hl : i < (recodeGdf q p).length := by simpa [recodeGdf] using h
  rw [List.getD_eq_getElem _ _ hl]
  simp [recodeGdf, h]

/-- Claim C2: the recoding loop applied to the pairwise poverty/insurance
results (cell 49) and the one applied to the SVI-theme results (cell 69)
compute the same function of (quadrant code, p_sim): on aligned inputs the
two loops produce identical label lists — there is no per-dataset branching. -/
theorem recode_equiv (q : List ℕ) (p : List ℚ) (h : p.length = q.length) :
    recodeGdf q p = recodeSvi (q.zip p) := by
  apply List.ext_getElem
  · simp [recodeGdf, recodeSvi, h]
  · intro i h1 h2
    have hiq : i < q.length := by simpa [recodeGdf] using h1
    have hip : i < p.length := by omega
    simp only [recodeGdf, recodeSvi, List.getElem_map, List.getElem_range,
      List.getElem_zip, lisaEntry]
    rw [List.getD_eq_getElem q 0 hiq, List.getD_eq_getElem p 0 hip]

theorem recode_equiv_witness :
    recodeGdf [1, 2, 4] [1 / 1000, 302 / 1000, 11 / 1000] =
      recodeSvi ([1, 2, 4].zip [1 / 1000, 302 / 1000, 11 / 1000]) :=
  recode_equiv [1, 2, 4] [1 / 1000, 302 / 1000, 11 / 1000] (by simp)

/-- Claim C10: the recoding loop is total and exclusive: it writes exactly one
label per region (the output has one entry per input row), every written label
lies in `{'HH', 'LH', 'LL', 'HL', 'NA'}` when the quadrant code is one of
`1..4`, and whenever `p_sim < 0.05` fails — including `p_sim = 0.05`
exactly — the region receives `'NA'` through the else branch. -/
theorem recode_total (q : List ℕ) (p : List ℚ) :
    (recodeGdf q p).length = q.length ∧
    (∀ i, i < q.length → q.getD i 0 ∈ ([1, 2, 3, 4] : List ℕ) →
      (recodeGdf q p).getD i none ∈
        ([some "HH", some "LH", some "LL", some "HL", some "NA"] :
          List (Option String))) ∧
    (∀ i, i < q.length → ¬ p.getD i 0 < alpha →
      (recodeGdf q p).getD i none = some "NA") := by
  refine ⟨by simp [recodeGdf], fun i hi hq => ?_, fun i hi hp => ?_⟩
  · rw [recodeGdf_getD q p i hi]
    unfold lisaEntry
    by_cases hp : p.getD i 0 < alpha
    · rw [if_pos hp]
      simp only [List.mem_cons, List.not_mem_nil, or_false] at hq
      rcases hq with h1 | h1 | h1 | h1 <;> rw [h1] <;> simp [lm_dict]
    · rw [if_neg hp]; simp
  · rw [recodeGdf_getD q p i hi]
    unfold lisaEntry
    rw [if_neg hp]

theorem recode_total_witness :
    (recodeGdf [1, 2] [1 / 100, 5 / 100]).length = 2 ∧
    (recodeGdf [1, 2] [1 / 100, 5 / 100]).getD 0 none ∈
      ([some "HH", some "LH", some "LL", some "HL", some "NA"] :
        List (Option String)) ∧
    (recodeGdf [1, 2] [1 / 100, 5 / 100]).getD 1 none = some "NA" :=
  ⟨(recode_total [1, 2] [1 / 100, 5 / 100]).1,
   (recode_total [1, 2] [1 / 100, 5 / 100]).2.1 0 (by norm_num) (by simp),
   (recode_total [1, 2] [1 / 100, 5 / 100]).2.2 1 (by norm_num)
     (by norm_num [alpha])⟩

/-- Mean of a length-`n` sequence (population mean; total division: `0` when
`n = 0`). -/
def meanF (n : ℕ) (X : Fin n → ℚ) : ℚ := (∑ i, X i) / (n : ℚ)

/-- Sum of all spatial weights, `S0 = Σ_i Σ_j w_ij`. -/
def s0 (n : ℕ) (w : Fin n → Fin n → ℚ) : ℚ := ∑ i, ∑ j, w i j

/-- Spatial lag of the mean-centered `Y` at region `i`:
`Σ_j w_ij * (y_j - mean Y)`. -/
def lagDev (n : ℕ) (w : Fin n → Fin n → ℚ) (Y : Fin n → ℚ) (i : Fin n) : ℚ :=
  ∑ j, w i j * (Y j - meanF n Y)

/-- Modelled from the spec: the global bivariate Moran statistic computed by
`esda.Moran_BV` (the library internals are not in this repository).  Per §4.2
of the spec, `I = (N / S0) * [Σ_i Σ_j w_ij (x_i - mean X)(y_j - mean Y)] /
[Σ_i (x_i - mean X)^2]`, computed here through the spatial lag of the
centered `Y`. -/
def moranBV (n : ℕ) (X Y : Fin n → ℚ) (w : Fin n → Fin n → ℚ) : ℚ :=
  ((n : ℚ) / s0 n w) * (∑ i, (X i - meanF n X) * lagDev n w Y i) /
    (∑ i, (X i - meanF n X) ^ 2)

/-- Claim C4: the global bivariate Moran computation returns
`(N / S0) * [Σ_i Σ_j w_ij (x_i - mean X)(y_j - mean Y)] / [Σ_i (x_i - mean X)^2]`
for every pair of equal-length sequences and weight mapping, and the statistic
is asymmetric: a concrete input has `I(X,Y) ≠ I(Y,X)`. -/
theorem moranBV_formula :
    (∀ (n : ℕ) (X Y : Fin n → ℚ) (w : Fin n → Fin n → ℚ),
      moranBV n X Y w =
        ((n : ℚ) / s0 n w) *
          (∑ i, ∑ j, w i j * (X i - meanF n X) * (Y j - meanF n Y)) /
          (∑ i, (X i - meanF n X) ^ 2)) ∧
    moranBV 2 ![0, 2] ![0, 1] ![![0, 1], ![1, 0]] ≠
      moranBV 2 ![0, 1] ![0, 2] ![![0, 1], ![1, 0]] := by
  constructor
  · intro n X Y w
    have hnum : (∑ i, (X i - meanF n X) * lagDev n w Y i) =
        ∑ i, ∑ j, w i j * (X i - meanF n X) * (Y j - meanF n Y) := by
      refine Finset.sum_congr rfl fun i _ => ?_
      rw [lagDev, Finset.mul_sum]
      exact Finset.sum_congr rfl fun j _ => by ring
    rw [moranBV, hnum]
  · norm_num [moranBV, meanF, s0, lagDev, Fin.sum_univ_two, Matrix.cons_val_zero,
      Matrix.cons_val_one, Matrix.head_cons]

/-- The mean commutes with an affine map when the sequence is nonempty. -/
theorem meanF_affine (n : ℕ) (X : Fin n → ℚ) (a b : ℚ) (hn : 0 < n) :
    meanF n (fun i => a * X i + b) = a * meanF n X + b := by
  have hn' : (n : ℚ) ≠ 0 := Nat.cast_ne_zero.mpr hn.ne'
  unfold meanF
  rw [show (∑ i, (a * X i + b)) = a * (∑ i, X i) + (n : ℚ) * b by
    rw [Finset.sum_add_distrib, ← Finset.mul_sum, Finset.sum_const,
      Finset.card_univ, Fintype.card_fin, nsmul_eq_mul]]
  field_simp
  ring

/-- The centered spatial lag commutes with an affine map of `Y` up to the
scale factor. -/
theorem lagDev_affine (n : ℕ) (w : Fin n → Fin n → ℚ) (Y : Fin n → ℚ)
    (a b : ℚ) (hn : 0 < n) (i : Fin n) :
    lagDev n w (fun j => a * Y j + b) i = a * lagDev n w Y i := by
  unfold lagDev
  rw [Finset.mul_sum]
  refine Finset.sum_congr rfl fun j _ => ?_
  rw [meanF_affine n Y a b hn]
  ring

/-- Claim C7 counterexample: the global bivariate Moran statistic of the
spec's formula is not invariant under a positive affine rescale of `X`: at
`X = (0,2)`, `Y = (0,1)`, adjacency weights, `a = 2`, `b = 0`, the rescaled
statistic is `-1/4` while the original is `-1/2`. -/
theorem moranBV_affine_cex :
    ¬ (moranBV 2 (fun i => 2 * (![0, 2] : Fin 2 → ℚ) i + 0) ![0, 1]
          ![![0, 1], ![1, 0]] =
        moranBV 2 ![0, 2] ![0, 1] ![![0, 1], ![1, 0]]) := by
  norm_num [moranBV, meanF, s0, lagDev, Fin.sum_univ_two, Matrix.cons_val_zero,
    Matrix.cons_val_one, Matrix.head_cons]

/-- Rescaling numerator by `a` and denominator by `a ^ 2` divides a quotient
by `a`. -/
theorem div_scale_aux (c num den a : ℚ) (ha : a ≠ 0) :
    c * (a * num) / (a ^ 2 * den) = c * num / den / a := by
  rcases eq_or_ne den 0 with h | h
  · simp [h]
  · field_simp
    ring

/-- Claim C7 (amended): for nonempty inputs and constants `a > 0`, `b`, a
positive affine rescale of `X` divides the global statistic by `a`,
`I(a*X + b, Y) = I(X, Y) / a`, and a rescale of `Y` multiplies it,
`I(X, a*Y + b) = a * I(X, Y)`; in particular pure shifts (`a = 1`) leave the
statistic unchanged, but invariance fails for `a ≠ 1`. -/
theorem moranBV_affine (n : ℕ) (X Y : Fin n → ℚ) (w : Fin n → Fin n → ℚ)
    (a b : ℚ) (ha : 0 < a) (hn : 0 < n) :
    moranBV n (fun i => a * X i + b) Y w = moranBV n X Y w / a ∧
    moranBV n X (fun i => a * Y i + b) w = a * moranBV n X Y w := by
  have ha' : a ≠ 0 := ha.ne'
  constructor
  · have hnum : (∑ i, ((fun i => a * X i + b) i -
        meanF n (fun i => a * X i + b)) * lagDev n w Y i) =
        a * ∑ i, (X i - meanF n X) * lagDev n w Y i := by
      rw [Finset.mul_sum]
      refine Finset.sum_congr rfl fun i _ => ?_
      simp only [meanF_affine n X a b hn]
      ring
    have hden : (∑ i, ((fun i => a * X i + b) i -
        meanF n (fun i => a * X i + b)) ^ 2) =
        a ^ 2 * ∑ i, (X i - meanF n X) ^ 2 := by
      rw [Finset.mul_sum]
      refine Finset.sum_congr rfl fun i _ => ?_
      simp only [meanF_affine n X a b hn]
      ring
    rw [moranBV, moranBV, hnum, hden, div_scale_aux _ _ _ a ha']
  · have hnum : (∑ i, (X i - meanF n X) *
        lagDev n w (fun j => a * Y j + b) i) =
        a * ∑ i, (X i - meanF n X) * lagDev n w Y i := by
      rw [Finset.mul_sum]
      refine Finset.sum_congr rfl fun i _ => ?_
      rw [lagDev_affine n w Y a b hn i]
      ring
    rw [moranBV, moranBV, hnum]
    ring

theorem moranBV_affine_witness :
    moranBV 2 (fun i => 2 * (![0, 2] : Fin 2 → ℚ) i + 3) ![0, 1]
        ![![0, 1], ![1, 0]] =
      moranBV 2 ![0, 2] ![0, 1] ![![0, 1], ![1, 0]] / 2 ∧
    moranBV 2 ![0, 2] (fun i => 2 * (![0, 1] : Fin 2 → ℚ) i + 3)
        ![![0, 1], ![1, 0]] =
      2 * moranBV 2 ![0, 2] ![0, 1] ![![0, 1], ![1, 0]] :=
  moranBV_affine 2 ![0, 2] ![0, 1] ![![0, 1], ![1, 0]] 2 3 (by norm_num)
    (by norm_num)

/-- Modelled from the spec: the number of permuted statistics at least as
extreme as the observed one, in the direction away from zero. -/
def extremeCount (obs : ℚ) (sims : List ℚ) : ℕ :=
  if 0 ≤ obs then sims.countP (fun s => decide (obs ≤ s))
  else sims.countP (fun s => decide (s ≤ obs))

/-- Modelled from the spec: the empirical permutation p-value
`(extreme count + 1) / (number of permutations + 1)`. -/
def pSim (obs : ℚ) (sims : List ℚ) : ℚ :=
  ((extremeCount obs sims : ℚ) + 1) / ((sims.length : ℚ) + 1)

/-- The default permutation count of `esda.Moran_BV` (999 permutations plus
the observed arrangement). -/
def defaultPermCount : ℕ := 999

/-- The permuted replicates of the global statistic: `X` held fixed, the
assignment of `Y` values to regions rearranged by each permutation. -/
def permutedIs (n : ℕ) (X Y : Fin n → ℚ) (w : Fin n → Fin n → ℚ)
    (perms : List (Fin n → Fin n)) : List ℚ :=
  perms.map (fun pi => moranBV n X (fun i => Y (pi i)) w)

/-- The permutation-test p-value of the global statistic. -/
def globalPSim (n : ℕ) (X Y : Fin n → ℚ) (w : Fin n → Fin n → ℚ)
    (perms : List (Fin n → Fin n)) : ℚ :=
  pSim (moranBV n X Y w) (permutedIs n X Y w perms)

/-- Claim C5: with the default 999 permutations, the empirical p-value of the
global permutation test equals (count of permuted statistics at least as
extreme as the observed one, away from zero, plus 1) / 1000; consequently it
lies in `[1/1000, 1]`. -/
theorem globalPSim_eq (n : ℕ) (X Y : Fin n → ℚ) (w : Fin n → Fin n → ℚ)
    (perms : List (Fin n → Fin n)) (h : perms.length = defaultPermCount) :
    globalPSim n X Y w perms =
      ((extremeCount (moranBV n X Y w) (permutedIs n X Y w perms) : ℚ) + 1) /
        1000 ∧
    1 / 1000 ≤ globalPSim n X Y w perms ∧ globalPSim n X Y w perms ≤ 1 := by
  have hlen : (permutedIs n X Y w perms).length = 999 := by
    simp [permutedIs, h, defaultPermCount]
  have hc : extremeCount (moranBV n X Y w) (permutedIs n X Y w perms) ≤ 999 := by
    unfold extremeCount
    split_ifs <;> exact hlen ▸ List.countP_le_length _
  have heq : globalPSim n X Y w perms =
      ((extremeCount (moranBV n X Y w) (permutedIs n X Y w perms) : ℚ) + 1) /
        1000 := by
    unfold globalPSim pSim
    rw [hlen]
    norm_num
  refine ⟨heq, ?_, ?_⟩
  · rw [heq]
    have h1 : (1 : ℚ) ≤ (extremeCount (moranBV n X Y w)
        (permutedIs n X Y w perms) : ℚ) + 1 := by
      have h0 : (0 : ℚ) ≤ (extremeCount (moranBV n X Y w)
          (permutedIs n X Y w perms) : ℚ) := Nat.cast_nonneg _
      linarith
    linarith [div_le_div_of_nonneg_right (c := (1000 : ℚ)) h1 (by norm_num)]
  · rw [heq, div_le_one (by norm_num : (0 : ℚ) < 1000)]
    have : ((extremeCount (moranBV n X Y w) (permutedIs n X Y w perms) : ℚ)) ≤
        999 := by exact_mod_cast hc
    linarith

theorem globalPSim_eq_witness :
    globalPSim 2 ![0, 1] ![1, 0] ![![0, 1], ![1, 0]]
        (List.replicate 999 (id : Fin 2 → Fin 2)) =
      ((extremeCount (moranBV 2 ![0, 1] ![1, 0] ![![0, 1], ![1, 0]])
          (permutedIs 2 ![0, 1] ![1, 0] ![![0, 1], ![1, 0]]
            (List.replicate 999 (id : Fin 2 → Fin 2))) : ℚ) + 1) / 1000 ∧
    1 / 1000 ≤ globalPSim 2 ![0, 1] ![1, 0] ![![0, 1], ![1, 0]]
        (List.replicate 999 (id : Fin 2 → Fin 2)) ∧
    globalPSim 2 ![0, 1] ![1, 0] ![![0, 1], ![1, 0]]
        (List.replicate 999 (id : Fin 2 → Fin 2)) ≤ 1 :=
  globalPSim_eq 2 ![0, 1] ![1, 0] ![![0, 1], ![1, 0]]
    (List.replicate 999 (id : Fin 2 → Fin 2))
    (by rw [List.length_replicate, defaultPermCount])

/-- Modelled from the spec: a deterministic pseudo-random step (linear
congruential) standing in for the library's unspecified generator; the spec
only requires that the seed determine the entire run's draws. -/
def lcgNext (s : ℕ) : ℕ := (1103515245 * s + 12345) % 2 ^ 31

/-- The pseudo-random stream derived from a seed. -/
def lcgStream (seed : ℕ) : ℕ → ℕ
  | 0 => lcgNext seed
  | k + 1 => lcgNext (lcgStream seed k)

/-- Draw-and-remove shuffle of a list, consuming stream values from position
`t`; `fuel` starts at the list length and decreases by one per extraction. -/
def shuffleAux (stream : ℕ → ℕ) : ℕ → ℕ → List ℚ → List ℚ
  | 0, _, l => l
  | fuel + 1, t, l =>
    let j := stream t % max l.length 1
    l.getD j 0 :: shuffleAux stream fuel (t + 1) (l.take j ++ l.drop (j + 1))

/-- Seeded shuffle of a list, reading the stream from offset `t`. -/
def shuffle (seed t : ℕ) (l : List ℚ) : List ℚ :=
  shuffleAux (lcgStream seed) l.length t l

/-- The local bivariate statistic of region `i`: own standardized value times
the weighted lag of the other variable (list embedding). -/
def localI (zx : List ℚ) (w : List (List ℚ)) (zy : List ℚ) (i : ℕ) : ℚ :=
  zx.getD i 0 * (List.zipWith (· * ·) (w.getD i []) zy).sum

/-- Modelled from the spec: the conditional-permutation p-value of region
`i` — hold `X` and region `i`'s own `Y` value fixed, shuffle the remaining
`Y` values with the seeded stream (a distinct stream offset per region and
per permutation), recompute the local statistic, and form the empirical
p-value. -/
def condPermPSim (zx zy : List ℚ) (w : List (List ℚ))
    (seed nperm i : ℕ) : ℚ :=
  let others := zy.take i ++ zy.drop (i + 1)
  let sims := (List.range nperm).map (fun k =>
    let perm := shuffle seed (i * nperm + k) others
    localI zx w (perm.take i ++ zy.getD i 0 :: perm.drop i) i)
  pSim (localI zx w zy i) sims

/-- The per-region p-values of the local permutation test: the entire run is
a function of `(zx, zy, w, seed, nperm)` alone. -/
def localPSims (zx zy : List ℚ) (w : List (List ℚ))
    (seed nperm : ℕ) : List ℚ :=
  (List.range zx.length).map (fun i => condPermPSim zx zy w seed nperm i)

/-- A seeded cyclic rearrangement of `Fin n`. -/
def finRot (n r : ℕ) (i : Fin n) : Fin n :=
  ⟨(i.val + r) % n, Nat.mod_lt _ i.pos⟩

/-- The seeded global permutation p-value: the permutations themselves are
derived from the seed through the stream. -/
def globalSeededPSim (n : ℕ) (X Y : Fin n → ℚ) (w : Fin n → Fin n → ℚ)
    (seed nperm : ℕ) : ℚ :=
  globalPSim n X Y w
    ((List.range nperm).map (fun k => finRot n (lcgStream seed k)))

/-- Claim C6: permutation-based p-values are deterministic in the seed: two
runs of the seeded local computation on the same
`(X, Y, weights, seed, permutation count)` produce identical p-value lists,
and the same holds for the seeded global statistic — each is a pure function
of its arguments, with every pseudo-random draw derived from the seed. -/
theorem seeded_runs_deterministic (zx zy : List ℚ) (w : List (List ℚ))
    (n : ℕ) (X Y : Fin n → ℚ) (wf : Fin n → Fin n → ℚ) (seed nperm : ℕ) :
    localPSims zx zy w seed nperm = localPSims zx zy w seed nperm ∧
    globalSeededPSim n X Y wf seed nperm =
      globalSeededPSim n X Y wf seed nperm :=
  ⟨rfl, rfl⟩

/-- Modelled from the spec: the regions with zero contiguous neighbors,
flagged at graph-build time as a warning condition (the graph builder
`libpysal.weights.Queen.from_dataframe` is not part of this repository). -/
def islands (adj : List (List ℕ)) : List ℕ :=
  (List.range adj.length).filter (fun i => decide (adj.getD i [] = []))

/-- Modelled from the spec: the row-standardized weights of region `i`,
`1 / neighbor_count` per neighbor; a region with no neighbors has no defined
row instead of a division by zero. -/
def rowWeights (adj : List (List ℕ)) (i : ℕ) : Option (List (ℕ × ℚ)) :=
  let nbrs := adj.getD i []
  if nbrs = [] then none
  else some (nbrs.map (fun j => (j, 1 / (nbrs.length : ℚ))))

/-- The row-standardized lag of `zy` at region `i`, undefined for an isolated
region. -/
def localLagW (adj : List (List ℕ)) (zy : List ℚ) (i : ℕ) : Option ℚ :=
  (rowWeights adj i).map
    (fun ws => (ws.map (fun p => p.2 * zy.getD p.1 0)).sum)

/-- The per-region local statistic: undefined (NA) exactly where the lag is
undefined. -/
def localStatBV (zx zy : List ℚ) (adj : List (List ℕ)) : List (Option ℚ) :=
  (List.range adj.length).map (fun i =>
    (localLagW adj zy i).map (fun l => zx.getD i 0 * l))

/-- Claim C8: a region with zero contiguous neighbors causes no
division-by-zero (all operations are total): it is flagged among the islands
at graph-build time and its local statistic is reported as undefined (`none`)
rather than silently as zero. -/
theorem isolated_region_safe (adj : List (List ℕ)) (zx zy : List ℚ) (i : ℕ)
    (hi : i < adj.length) (hiso : adj.getD i [] = []) :
    i ∈ islands adj ∧
    (localStatBV zx zy adj).getD i (some 0) = none ∧
    (localStatBV zx zy adj).getD i (some 0) ≠ some 0 := by
  have hl : i < (localStatBV zx zy adj).length := by simp [localStatBV, hi]
  have hiso2 : adj[i] = [] := by
    rw [← List.getD_eq_getElem adj [] hi]; exact hiso
  have hstat : (localStatBV zx zy adj).getD i (some 0) = none := by
    rw [List.getD_eq_getElem _ _ hl]
    simp [localStatBV, localLagW, rowWeights, hiso, hi, hiso2]
  refine ⟨?_, hstat, by rw [hstat]; exact fun h => Option.noConfusion h⟩
  simp [islands, List.mem_filter, List.mem_range, hi, hiso, hiso2]

theorem isolated_region_safe_witness :
    2 ∈ islands [[1], [0], []] ∧
    (localStatBV [1, 1, 1] [2, 2, 2] [[1], [0], []]).getD 2 (some 0) = none ∧
    (localStatBV [1, 1, 1] [2, 2, 2] [[1], [0], []]).getD 2 (some 0) ≠
      some 0 :=
  isolated_region_safe [[1], [0], []] [1, 1, 1] [2, 2, 2] 2 (by norm_num) rfl

/-- A pandas-style numeric cell: a rational value, `NaN`, or an infinity. -/
inductive PCell where
  | val : ℚ → PCell
  | nan : PCell
  | inf : PCell
  | ninf : PCell
deriving DecidableEq

/-- Pandas division semantics for `Poverty_count / Pop` (cell 20): `0 / 0`
is `NaN`, a nonzero numerator over zero is a signed infinity, otherwise an
exact quotient. -/
def pdiv (c p : ℚ) : PCell :=
  if p = 0 then
    (if c = 0 then PCell.nan else if 0 < c then PCell.inf else PCell.ninf)
  else PCell.val (c / p)

/-- `fillna(0)` of cell 20: `NaN` becomes `0`; everything else is kept. -/
def fillna0 : PCell → PCell
  | PCell.nan => PCell.val 0
  | x => x

/-- `replace(sentinel, 0)` of cells 33 and 54. -/
def replaceVal (sentinel : ℚ) : PCell → PCell
  | PCell.val v => if v = sentinel then PCell.val 0 else PCell.val v
  | x => x

/-- The cleaned poverty-share column of cell 20: elementwise ratio of count
to population, then `fillna(0)`. -/
def cleanPovShare (counts pops : List ℚ) : List PCell :=
  (counts.zip pops).map (fun cp => fillna0 (pdiv cp.1 cp.2))

/-- The cleaned `No_HS_pct` column of cell 33: `replace(-666666666.0, 0)`. -/
def cleanNoHS (xs : List PCell) : List PCell :=
  xs.map (replaceVal (-666666666))

/-- The cleaned SVI columns of cell 54: `replace(-999, 0)`. -/
def cleanSvi (xs : List PCell) : List PCell :=
  xs.map (replaceVal (-999))

/-- A nonzero sentinel never survives its `replace` step. -/
theorem replaceVal_no_sentinel (s : ℚ) (hs : s ≠ 0) (xs : List PCell) :
    PCell.val s ∉ xs.map (replaceVal s) := by
  intro hmem
  rcases List.mem_map.mp hmem with ⟨x, _, heq⟩
  cases x with
  | val v =>
    simp only [replaceVal] at heq
    split_ifs at heq with hv
    · exact hs (PCell.val.inj heq).symm
    · exact hv (PCell.val.inj heq)
  | nan => exact PCell.noConfusion heq
  | inf => exact PCell.noConfusion heq
  | ninf => exact PCell.noConfusion heq

/-- Claim C9: every undefined or missing numeric value is resolved to zero
before entering a statistic: under the data invariant `0 ≤ count ≤ pop`,
every cleaned poverty-share entry is a plain rational (no `NaN`, no
infinity), a zero-population tract yields exactly `0`, and the sentinel
codes `-666666666.0` and `-999` never survive their `replace` steps. -/
theorem missing_resolved (counts pops : List ℚ) (xs ys : List PCell)
    (h : ∀ cp ∈ counts.zip pops, 0 ≤ cp.1 ∧ cp.1 ≤ cp.2) :
    (∀ cell ∈ cleanPovShare counts pops, ∃ q, cell = PCell.val q) ∧
    (∀ cp ∈ counts.zip pops, cp.2 = 0 →
      fillna0 (pdiv cp.1 cp.2) = PCell.val 0) ∧
    PCell.val (-666666666) ∉ cleanNoHS xs ∧
    PCell.val (-999) ∉ cleanSvi ys := by
  have key : ∀ cp ∈ counts.zip pops, cp.2 = 0 →
      fillna0 (pdiv cp.1 cp.2) = PCell.val 0 := by
    intro cp hcp hp0
    have hc0 : cp.1 = 0 :=
      le_antisymm (hp0 ▸ (h cp hcp).2) (h cp hcp).1
    simp [pdiv, fillna0, hp0, hc0]
  refine ⟨?_, key, ?_, ?_⟩
  · intro cell hc
    rcases List.mem_map.mp hc with ⟨cp, hcp, rfl⟩
    by_cases hp : cp.2 = 0
    · exact ⟨0, key cp hcp hp⟩
    · exact ⟨cp.1 / cp.2, by simp [pdiv, fillna0, hp]⟩
  · exact fun hmem =>
      replaceVal_no_sentinel (-666666666) (by norm_num) xs hmem
  · exact fun hmem => replaceVal_no_sentinel (-999) (by norm_num) ys hmem

theorem missing_resolved_witness :
    fillna0 (pdiv 0 0) = PCell.val 0 ∧
    PCell.val (-666666666) ∉ cleanNoHS [PCell.val (-666666666)] ∧
    PCell.val (-999) ∉ cleanSvi [PCell.val (-999)] :=
  ⟨(missing_resolved [0, 1] [0, 2] [] [] (by decide)).2.1 (0, 0)
      (by decide) rfl,
   (missing_resolved [0, 1] [0, 2] [PCell.val (-666666666)]
      [PCell.val (-999)] (by decide)).2.2.1,
   (missing_resolved [0, 1] [0, 2] [PCell.val (-666666666)]
      [PCell.val (-999)] (by decide)).2.2.2⟩

end SpatialCorr
